import Mathlib

/-!
Verification development for the ftree GEDCOM core: the line tokenizer and
record builder (src/parser.py), the family graph (src/models.py), and the
ASCII forest traversal (src/renderer.py), shallowly embedded in Lean.

Conventions of the embedding:
* Python `Optional[str]` values are `Option String`; Python truthiness of such
  a value (`if x:`) is `pyTruthy` (false exactly on `None` and `""`).
* Python dicts (which preserve insertion order and overwrite in place) are
  association lists with `dictSet` / `dictGet`.
* Python exceptions raised while parsing are `Except` errors.
* The ASCII renderer's string assembly (prefix glyphs, joining) is abstracted
  to the stream of visit events it emits - one event per `_format_individual`
  call, tagged by the call site (parent / child / descendant spouse /
  descendant child / orphan), carrying the rendered individual's id.  The
  rendered-set bookkeeping is modelled exactly as in the code.
-/

namespace Ftree

/-- Python truthiness of an `Optional[str]`: `None` and `""` are falsy. -/
def pyTruthy : Option String → Bool
  | none => false
  | some s => s ≠ ""

/-! ## Python dict model (insertion ordered, overwrite keeps position) -/

/-- Membership test for an association-list dict. -/
def dictHas {α : Type} (d : List (Option String × α)) (k : Option String) : Bool :=
  match d with
  | [] => false
  | (k0, _) :: rest => k0 = k || dictHas rest k

/-- `d[k] = v` on a Python dict: overwrite in place if the key exists,
else append at the end (insertion order preserved). -/
def dictSet {α : Type} (d : List (Option String × α)) (k : Option String) (v : α) :
    List (Option String × α) :=
  if dictHas d k then d.map (fun p => if p.1 = k then (k, v) else p)
  else d ++ [(k, v)]

/-- `d.get(k)`: the value stored under `k`, or `none`. -/
def dictGet {α : Type} (d : List (Option String × α)) (k : Option String) : Option α :=
  match d with
  | [] => none
  | (k0, v) :: rest => if k0 = k then some v else dictGet rest k

/-- The keys of a dict, in insertion order. -/
def dictKeys {α : Type} (d : List (Option String × α)) : List (Option String) :=
  d.map Prod.fst

/-- How many entries of the dict carry key `k`. -/
def keyCount {α : Type} (d : List (Option String × α)) (k : Option String) : Nat :=
  ((dictKeys d).filter (fun x => x = k)).length

/-! ## Data model (src/models.py) -/

/-- `models.Individual`.  Ids and all GEDCOM values are `Option String`
because tag values may be absent (`None` in Python). -/
structure Individual where
  id : Option String
  given_name : Option String := none
  surname : Option String := none
  sex : Option String := none
  birth_date : Option String := none
  birth_place : Option String := none
  death_date : Option String := none
  death_place : Option String := none
  family_spouse : List (Option String) := []
  family_child : List (Option String) := []
  objects : List (Option String) := []
  occupation : Option String := none
  religion : Option String := none
  education : Option String := none
deriving DecidableEq

/-- `models.Family`. -/
structure Family where
  id : Option String
  husband_id : Option String := none
  wife_id : Option String := none
  children_ids : List (Option String) := []
  marriage_date : Option String := none
  marriage_place : Option String := none
  engagement_date : Option String := none
  divorce_date : Option String := none
deriving DecidableEq

/-- `models.FamilyTree` (the fields this core populates; notes and sources
are stored but never written by this parser). -/
structure FamilyTree where
  individuals : List (Option String × Individual) := []
  families : List (Option String × Family) := []
  submitter : Option (Option String) := none
deriving DecidableEq

/-- `FamilyTree.add_individual`: `self.individuals[individual.id] = individual`. -/
def FamilyTree.add_individual (t : FamilyTree) (i : Individual) : FamilyTree :=
  { t with individuals := dictSet t.individuals i.id i }

/-- `FamilyTree.add_family`: `self.families[family.id] = family`. -/
def FamilyTree.add_family (t : FamilyTree) (f : Family) : FamilyTree :=
  { t with families := dictSet t.families f.id f }

/-- `FamilyTree.get_individual`: `self.individuals.get(id)`. -/
def FamilyTree.get_individual (t : FamilyTree) (k : Option String) : Option Individual :=
  dictGet t.individuals k

/-- `FamilyTree.get_family`: `self.families.get(id)`. -/
def FamilyTree.get_family (t : FamilyTree) (k : Option String) : Option Family :=
  dictGet t.families k

/-! ## Year extraction (`Individual.get_birth_year`, src/models.py lines 59-64)

The code runs `re.search` with the pattern: backslash-b, four digits in a
capture group, backslash-b.  A match is therefore four consecutive digits
delimited on both sides by a word boundary, and `re.search` returns the
leftmost such match. -/

/-- A regex word character: letter, digit or underscore (ASCII; the inputs
this program feeds the regex are ASCII GEDCOM date strings). -/
def isWordChar (c : Char) : Bool :=
  c.isAlphanum || c = '_'

/-- Is the character at index `i` (if any) a digit?  Out-of-range indices
read the blank default, which is not a digit. -/
def digitAt (cs : List Char) (i : Nat) : Bool :=
  (cs.getD i ' ').isDigit

/-- Is the character at index `i` (if any) a word character?  Out-of-range
indices read the blank default, which is not a word character. -/
def wordAt (cs : List Char) (i : Nat) : Bool :=
  isWordChar (cs.getD i ' ')

/-- The regex pattern matches at index `i`: four digits at `i..i+3`, a word
boundary just before `i` and a word boundary just after `i+3`.  Since a digit
is a word character, the boundary conditions reduce to: the character before
(if any) and the character after (if any) are not word characters. -/
def runAt (cs : List Char) (i : Nat) : Bool :=
  digitAt cs i && digitAt cs (i + 1) && digitAt cs (i + 2) && digitAt cs (i + 3) &&
    (decide (i = 0) || !wordAt cs (i - 1)) && !wordAt cs (i + 4)

/-- Numeric value of the four digits starting at index `i`. -/
def yearVal (cs : List Char) (i : Nat) : Nat :=
  let d : Nat → Nat := fun j => (cs.getD j '0').toNat - 48
  ((d i * 10 + d (i + 1)) * 10 + d (i + 2)) * 10 + d (i + 3)

/-- Scan for the leftmost match index, starting at `i` with `fuel` indices
left to try (`re.search` semantics). -/
def searchFrom (cs : List Char) (i fuel : Nat) : Option Nat :=
  match fuel with
  | 0 => none
  | fuel1 + 1 => if runAt cs i then some i else searchFrom cs (i + 1) fuel1

/-- `re.search` of the four-digit-with-boundaries pattern: value of the
leftmost match, if any. -/
def searchYear (cs : List Char) : Option Nat :=
  (searchFrom cs 0 cs.length).map (yearVal cs)

/-- `Individual.get_birth_year`: `None` when `birth_date` is falsy, else the
`int` of the first regex match, or `None` when there is no match. -/
def getBirthYear (i : Individual) : Option Nat :=
  match i.birth_date with
  | none => none
  | some s => if s = "" then none else searchYear s.toList

/-- The characters year extraction scans (empty when no date is stored). -/
def bdChars (i : Individual) : List Char :=
  match i.birth_date with
  | none => []
  | some s => s.toList

/-! ## Family grouping (`FamilyTree.get_family_group`, src/models.py 172-204) -/

/-- Python `x or default` on the optional birth year: `None` and the falsy
int `0` both select the default. -/
def pyOrNat (o : Option Nat) (dflt : Nat) : Nat :=
  match o with
  | none => dflt
  | some n => if n = 0 then dflt else n

/-- The sort key `lambda c: c.get_birth_year() or 9999`. -/
def sortKey (c : Individual) : Nat :=
  pyOrNat (getBirthYear c) 9999

/-- The comparison used to model `list.sort(key=sortKey)` (Timsort is a
stable sort; a stable sort by a total preorder is extensionally unique, and
is modelled here by `List.insertionSort`). -/
def keyLe (a b : Individual) : Prop :=
  sortKey a ≤ sortKey b

instance : DecidableRel keyLe := fun _ _ => Nat.decLe _ _

instance : IsTotal Individual keyLe := ⟨fun _ _ => Nat.le_total _ _⟩

instance : IsTrans Individual keyLe := ⟨fun _ _ _ => Nat.le_trans⟩

/-- The value returned by `get_family_group` for a present family (the code
returns a dict with these four entries; for a missing family it returns the
empty dict, modelled as `none` at the call sites). -/
structure FamilyGroup where
  family : Family
  husband : Option Individual
  wife : Option Individual
  children : List Individual
deriving DecidableEq

/-- `FamilyTree.get_family_group`. -/
def get_family_group (t : FamilyTree) (familyId : Option String) : Option FamilyGroup :=
  match t.get_family familyId with
  | none => none
  | some family =>
    let husband := if pyTruthy family.husband_id then t.get_individual family.husband_id else none
    let wife := if pyTruthy family.wife_id then t.get_individual family.wife_id else none
    let children := family.children_ids.filterMap t.get_individual
    some ⟨family, husband, wife, List.insertionSort keyLe children⟩

/-- `FamilyTree.get_all_family_groups`: `get_family_group` over the family
keys in insertion order, keeping the truthy (present) groups. -/
def get_all_family_groups (t : FamilyTree) : List FamilyGroup :=
  (dictKeys t.families).filterMap (get_family_group t)

/-! ## Line tokenizer (`GedcomParser._parse_line`, src/parser.py 59-83) -/

/-- `str.strip()` (ASCII whitespace, which is all these inputs carry). -/
def stripChars (cs : List Char) : List Char :=
  ((cs.dropWhile Char.isWhitespace).reverse.dropWhile Char.isWhitespace).reverse

/-- `line.lstrip(bom-char)`: drop every leading U+FEFF. -/
def dropBom (cs : List Char) : List Char :=
  cs.dropWhile (fun c => c = '﻿')

/-- Drop leading whitespace. -/
def dropWs (cs : List Char) : List Char :=
  cs.dropWhile Char.isWhitespace

/-- Read one whitespace-delimited token and the remainder. -/
def takeTok (cs : List Char) : List Char × List Char :=
  (cs.takeWhile (fun c => !c.isWhitespace), cs.dropWhile (fun c => !c.isWhitespace))

/-- `line.split(None, 2)`: up to two whitespace splits, runs of whitespace as
separators, the remainder (leading whitespace dropped) as last element. -/
def pySplitWs2 (cs : List Char) : List (List Char) :=
  let cs1 := dropWs cs
  if cs1.isEmpty then []
  else
    let (t1, r1) := takeTok cs1
    let r1d := dropWs r1
    if r1d.isEmpty then [t1]
    else
      let (t2, r2) := takeTok r1d
      let r2d := dropWs r2
      if r2d.isEmpty then [t1, t2] else [t1, t2, r2d]

/-- Does a token conform to Python's int-literal digit part after its first
character was checked (digits with single interior underscores)? -/
def pyDigitsOk : List Char → Bool
  | [] => true
  | ['_'] => false
  | '_' :: c :: rest => c.isDigit && pyDigitsOk rest
  | c :: rest => c.isDigit && pyDigitsOk rest

/-- A valid unsigned Python int literal: starts with a digit, then digits
with single interior underscores. -/
def pyIntTok (cs : List Char) : Bool :=
  match cs with
  | [] => false
  | c :: _ => c.isDigit && pyDigitsOk cs

/-- Value of a valid unsigned int literal (underscores ignored). -/
def pyIntVal (cs : List Char) : Nat :=
  (cs.filter (fun c => c != '_')).foldl (fun a c => a * 10 + (c.toNat - 48)) 0

/-- Python `int(token)`: optional sign then a digit part; `none` models the
`ValueError` raised on anything else. -/
def pyInt? (cs : List Char) : Option Int :=
  match cs with
  | '+' :: rest => if pyIntTok rest then some (Int.ofNat (pyIntVal rest)) else none
  | '-' :: rest => if pyIntTok rest then some (-(Int.ofNat (pyIntVal rest))) else none
  | _ => if pyIntTok cs then some (Int.ofNat (pyIntVal cs)) else none

/-- The exception `_parse_line` can raise: `int()` on a non-integer token. -/
inductive ParseErr where
  | badLevel (tok : String)
deriving DecidableEq

/-- `GedcomParser._parse_line` on an already-stripped line: BOM strip, split
into at most three parts, `int` the level (raising on failure), then the
`TAG value` / `at-pointer TAG` / bare forms. -/
def parseLine (cs : List Char) : Except ParseErr (Int × String × Option String) :=
  let cs1 := dropBom cs
  match pySplitWs2 cs1 with
  | [] => Except.ok (0, "", none)
  | p0 :: rest =>
    match pyInt? p0 with
    | none => Except.error (ParseErr.badLevel (String.mk p0))
    | some level =>
      match rest with
      | [] => Except.ok (level, "", none)
      | p1 :: rest2 =>
        if p1.head? = some '@' then
          match rest2 with
          | [p2] => Except.ok (level, String.mk p2, some (String.mk p1))
          | _ => Except.ok (level, "", some (String.mk p1))
        else
          Except.ok (level, String.mk p1, rest2.head?.map String.mk)

/-! ## Record builder (`GedcomParser`, src/parser.py 85-202) -/

/-- The four `current_*` event flags.  In Python they are instance attributes
that do not exist until the first `_process_level1` call sets them; the
surrounding `Option` models the `hasattr` checks. -/
structure Flags where
  birth : Bool
  death : Bool
  marriage : Bool
  object : Bool
deriving DecidableEq

/-- `current_type`/`current_record` fused: the in-progress record.  `head`
carries no data because the HEAD record is the empty dict (which is falsy in
Python, a fact the save and level-1 guards depend on); SUBM is the singleton
dict with the id. -/
inductive Current where
  | indi (i : Individual)
  | fam (f : Family)
  | head
  | subm (sid : Option String)
deriving DecidableEq

/-- Parser state: the tree being populated, the current record, the flags. -/
structure PState where
  tree : FamilyTree
  current : Option Current
  flags : Option Flags
deriving DecidableEq

/-- Fresh parser: empty tree, no current record, flags attributes unset. -/
def initState : PState := ⟨{}, none, none⟩

/-- Python truthiness of `self.current_record`: `None` and the HEAD empty
dict are falsy, every other record is truthy. -/
def recTruthy : Option Current → Bool
  | none => false
  | some Current.head => false
  | some _ => true

/-- `GedcomParser._save_current_record`: commit the current record into the
tree.  The HEAD branch never fires because the empty dict is falsy. -/
def saveCurrent (st : PState) : PState :=
  match st.current with
  | some (Current.indi i) => { st with tree := st.tree.add_individual i }
  | some (Current.fam f) => { st with tree := st.tree.add_family f }
  | some Current.head => st
  | some (Current.subm sid) => { st with tree := { st.tree with submitter := some sid } }
  | none => st

/-- `GedcomParser._process_level0`: save the previous record, then start the
record selected by the tag (TRLR and unknown tags clear it).  The event
flags are not touched. -/
def processLevel0 (st : PState) (tag : String) (value : Option String) : PState :=
  let st1 := saveCurrent st
  if tag = "INDI" then { st1 with current := some (Current.indi { id := value }) }
  else if tag = "FAM" then { st1 with current := some (Current.fam { id := value }) }
  else if tag = "HEAD" then { st1 with current := some Current.head }
  else if tag = "SUBM" then { st1 with current := some (Current.subm value) }
  else { st1 with current := none }

/-- `GedcomParser._parse_name`: split `Given /Surname/` on the slashes. -/
def splitChar (sep : Char) : List Char → List Char → List (List Char)
  | [], acc => [acc.reverse]
  | c :: rest, acc =>
    if c = sep then acc.reverse :: splitChar sep rest []
    else splitChar sep rest (c :: acc)

/-- `GedcomParser._parse_name` applied to the current Individual. -/
def parseName (i : Individual) (value : Option String) : Individual :=
  if pyTruthy value = false then i
  else if ((value.getD "").toList).contains '/' then
    match splitChar '/' ((value.getD "").toList) [] with
    | p0 :: p1 :: _ =>
      { i with given_name := some (String.mk (stripChars p0)),
               surname := some (String.mk (stripChars p1)) }
    | _ => i
  else { i with given_name := some (String.mk (stripChars ((value.getD "").toList))) }

/-- Level-1 dispatch for an Individual record (flags already reset). -/
def level1Indi (i : Individual) (fl : Flags) (tag : String) (value : Option String) :
    Individual × Flags :=
  if tag = "NAME" then (parseName i value, fl)
  else if tag = "SEX" then ({ i with sex := value }, fl)
  else if tag = "BIRT" then (i, { fl with birth := true })
  else if tag = "DEAT" then (i, { fl with death := true })
  else if tag = "FAMS" then ({ i with family_spouse := i.family_spouse ++ [value] }, fl)
  else if tag = "FAMC" then ({ i with family_child := i.family_child ++ [value] }, fl)
  else if tag = "OBJE" then (i, { fl with object := true })
  else (i, fl)

/-- Level-1 dispatch for a Family record (flags already reset). -/
def level1Fam (f : Family) (fl : Flags) (tag : String) (value : Option String) :
    Family × Flags :=
  if tag = "HUSB" then ({ f with husband_id := value }, fl)
  else if tag = "WIFE" then ({ f with wife_id := value }, fl)
  else if tag = "CHIL" then ({ f with children_ids := f.children_ids ++ [value] }, fl)
  else if tag = "MARR" then (f, { fl with marriage := true })
  else (f, fl)

/-- `GedcomParser._process_level1`: return unchanged on a falsy current
record (this happens for `None` and for the HEAD empty dict, and then the
flags are NOT reset); otherwise reset all four flags and dispatch. -/
def processLevel1 (st : PState) (tag : String) (value : Option String) : PState :=
  if recTruthy st.current = false then st
  else
    let fl0 : Flags := ⟨false, false, false, false⟩
    match st.current with
    | some (Current.indi i) =>
      let p := level1Indi i fl0 tag value
      { st with current := some (Current.indi p.1), flags := some p.2 }
    | some (Current.fam f) =>
      let p := level1Fam f fl0 tag value
      { st with current := some (Current.fam p.1), flags := some p.2 }
    | _ => { st with flags := some fl0 }

/-- `hasattr(self, current_birth) and self.current_birth`. -/
def flagBirth (st : PState) : Bool :=
  match st.flags with
  | some fl => fl.birth
  | none => false

/-- `hasattr(self, current_death) and self.current_death`. -/
def flagDeath (st : PState) : Bool :=
  match st.flags with
  | some fl => fl.death
  | none => false

/-- `hasattr(self, current_marriage) and self.current_marriage`. -/
def flagMarriage (st : PState) : Bool :=
  match st.flags with
  | some fl => fl.marriage
  | none => false

/-- `hasattr(self, current_object) and self.current_object`. -/
def flagObject (st : PState) : Bool :=
  match st.flags with
  | some fl => fl.object
  | none => false

/-- Replace the current Individual record. -/
def setIndi (st : PState) (i : Individual) : PState :=
  { st with current := some (Current.indi i) }

/-- Replace the current Family record. -/
def setFam (st : PState) (f : Family) : PState :=
  { st with current := some (Current.fam f) }

/-- `self.current_object = False` after one FILE is captured. -/
def clearObject : Option Flags → Option Flags
  | some fl => some { fl with object := false }
  | none => none

/-- The INDI branch of `_process_level2`: routed exclusively by the open
sub-context; GIVN/SURN only reachable when no context flag is set. -/
def level2Indi (st : PState) (i : Individual) (tag : String) (value : Option String) :
    PState :=
  if flagBirth st then
    if tag = "DATE" then setIndi st { i with birth_date := value }
    else if tag = "PLAC" then setIndi st { i with birth_place := value }
    else st
  else if flagDeath st then
    if tag = "DATE" then setIndi st { i with death_date := value }
    else if tag = "PLAC" then setIndi st { i with death_place := value }
    else st
  else if flagObject st then
    if tag = "FILE" then
      { st with current := some (Current.indi { i with objects := i.objects ++ [value] }),
                flags := clearObject st.flags }
    else st
  else if tag = "GIVN" then setIndi st { i with given_name := value }
  else if tag = "SURN" then setIndi st { i with surname := value }
  else st

/-- The FAM branch of `_process_level2`: only the marriage context routes. -/
def level2Fam (st : PState) (f : Family) (tag : String) (value : Option String) : PState :=
  if flagMarriage st then
    if tag = "DATE" then setFam st { f with marriage_date := value }
    else if tag = "PLAC" then setFam st { f with marriage_place := value }
    else st
  else st

/-- `GedcomParser._process_level2`. -/
def processLevel2 (st : PState) (tag : String) (value : Option String) : PState :=
  if recTruthy st.current = false then st
  else
    match st.current with
    | some (Current.indi i) => level2Indi st i tag value
    | some (Current.fam f) => level2Fam st f tag value
    | _ => st

/-- The level dispatch of `_parse_lines`: levels 0, 1, 2 are processed,
every other level is ignored. -/
def dispatchLine (st : PState) (level : Int) (tag : String) (value : Option String) :
    PState :=
  if level = 0 then processLevel0 st tag value
  else if level = 1 then processLevel1 st tag value
  else if level = 2 then processLevel2 st tag value
  else st

/-- One iteration of `GedcomParser._parse_lines`: strip, skip empties, parse
the line (propagating the `int()` error) and dispatch on the level. -/
def runLine (st : PState) (line : String) : Except ParseErr PState :=
  if (stripChars line.toList).isEmpty then Except.ok st
  else
    match parseLine (stripChars line.toList) with
    | Except.error e => Except.error e
    | Except.ok (level, tag, value) => Except.ok (dispatchLine st level tag value)

/-- `GedcomParser._parse_lines` over the whole file. -/
def runLines : PState → List String → Except ParseErr PState
  | st, [] => Except.ok st
  | st, l :: rest =>
    match runLine st l with
    | Except.error e => Except.error e
    | Except.ok st1 => runLines st1 rest

/-- `GedcomParser.parse_file` after the file read: parse all lines, save the
final record, return the tree.  An uncaught `int()` error aborts the pass. -/
def parseGedcom (lines : List String) : Except ParseErr FamilyTree :=
  match runLines initState lines with
  | Except.error e => Except.error e
  | Except.ok st => Except.ok (saveCurrent st).tree

/-- The tree a successful parse produces (empty tree on an aborted parse;
used only at inputs whose parse is proved to succeed). -/
def treeOf (lines : List String) : FamilyTree :=
  match parseGedcom lines with
  | Except.ok t => t
  | Except.error _ => {}

instance {ε α : Type} [DecidableEq ε] [DecidableEq α] : DecidableEq (Except ε α) := fun x y =>
  match x, y with
  | Except.error a, Except.error b =>
    if h : a = b then isTrue (by rw [h]) else isFalse (by intro hc; cases hc; exact h rfl)
  | Except.error _, Except.ok _ => isFalse (by intro hc; cases hc)
  | Except.ok _, Except.error _ => isFalse (by intro hc; cases hc)
  | Except.ok a, Except.ok b =>
    if h : a = b then isTrue (by rw [h]) else isFalse (by intro hc; cases hc; exact h rfl)

/-- The input declares `id` on a level-0 INDI line. -/
def DeclaredIndi (lines : List String) (id : String) : Prop :=
  ∃ l, l ∈ lines ∧ parseLine (stripChars l.toList) = Except.ok (0, "INDI", some id)

/-- The input declares `id` on a level-0 FAM line. -/
def DeclaredFam (lines : List String) (id : String) : Prop :=
  ∃ l, l ∈ lines ∧ parseLine (stripChars l.toList) = Except.ok (0, "FAM", some id)

instance (lines : List String) (id : String) : Decidable (DeclaredIndi lines id) :=
  List.decidableBEx _ lines

instance (lines : List String) (id : String) : Decidable (DeclaredFam lines id) :=
  List.decidableBEx _ lines

/-- The id is pending as the current Individual record or already a key of
the individuals dict — the invariant a level-0 INDI declaration establishes
and every later step preserves until the final save turns it into a key. -/
def TrackedIndi (st : PState) (id : String) : Prop :=
  (∃ i : Individual, st.current = some (Current.indi i) ∧ i.id = some id) ∨
    some id ∈ dictKeys st.tree.individuals

/-- The Family analogue of `TrackedIndi`. -/
def TrackedFam (st : PState) (id : String) : Prop :=
  (∃ f : Family, st.current = some (Current.fam f) ∧ f.id = some id) ∨
    some id ∈ dictKeys st.tree.families

/-- Both dicts have duplicate-free key lists. -/
def KeysOK (st : PState) : Prop :=
  (dictKeys st.tree.individuals).Nodup ∧ (dictKeys st.tree.families).Nodup

/-! ## State-threaded family grouping (for the reread-idempotence property)

`get_family_group` / `get_all_family_groups` are re-expressed with the
`FamilyTree` threaded through every access, so that a second call literally
receives the state the first call returned.  The only in-place mutation in
the code, `children.sort()`, acts on the per-call local list, never on the
tree, so every access returns the tree it received. -/

/-- `get_family` as a state-threaded access. -/
def get_familyS (t : FamilyTree) (k : Option String) : Option Family × FamilyTree :=
  (t.get_family k, t)

/-- `get_individual` as a state-threaded access. -/
def get_individualS (t : FamilyTree) (k : Option String) : Option Individual × FamilyTree :=
  (t.get_individual k, t)

/-- The `for child_id in family.children_ids` loop of `get_family_group`,
threading the tree. -/
def childrenLoopS (t : FamilyTree) : List (Option String) → List Individual × FamilyTree
  | [] => ([], t)
  | cid :: rest =>
    let p := get_individualS t cid
    let q := childrenLoopS p.2 rest
    match p.1 with
    | some child => (child :: q.1, q.2)
    | none => q

/-- `get_family_group` with the tree threaded through every access. -/
def get_family_groupS (t : FamilyTree) (familyId : Option String) :
    Option FamilyGroup × FamilyTree :=
  let pf := get_familyS t familyId
  match pf.1 with
  | none => (none, pf.2)
  | some family =>
    let ph := if pyTruthy family.husband_id then get_individualS pf.2 family.husband_id
              else (none, pf.2)
    let pw := if pyTruthy family.wife_id then get_individualS ph.2 family.wife_id
              else (none, ph.2)
    let pc := childrenLoopS pw.2 family.children_ids
    (some ⟨family, ph.1, pw.1, List.insertionSort keyLe pc.1⟩, pc.2)

/-- The `for family_id in self.families.keys()` loop of
`get_all_family_groups`, threading the tree. -/
def famGroupsLoopS (t : FamilyTree) : List (Option String) → List FamilyGroup × FamilyTree
  | [] => ([], t)
  | fid :: rest =>
    let p := get_family_groupS t fid
    let q := famGroupsLoopS p.2 rest
    match p.1 with
    | some g => (g :: q.1, q.2)
    | none => q

/-- `get_all_family_groups` with the tree threaded through every access. -/
def get_all_family_groupsS (t : FamilyTree) : List FamilyGroup × FamilyTree :=
  famGroupsLoopS t (dictKeys t.families)

/-! ## ASCII renderer traversal (src/renderer.py)

One visit event per `_format_individual` call, tagged by the call site,
carrying the id of the individual whose line was produced.  `rendered`
models `self.rendered_individuals` (only membership matters), with exactly
the id the code passes to `.add(...)` at each site. -/

/-- A visit event of the traversal. -/
inductive Ev where
  | parent (id : Option String)
  | child (id : Option String)
  | dspouse (id : Option String)
  | dchild (id : Option String)
  | orphan (id : Option String)
deriving DecidableEq

/-- The id of the individual an event rendered. -/
def evId : Ev → Option String
  | Ev.parent i => i
  | Ev.child i => i
  | Ev.dspouse i => i
  | Ev.dchild i => i
  | Ev.orphan i => i

/-- Events produced inside `_render_descendant_family` (the ones emitted
without consulting the rendered-set). -/
def isDesc : Ev → Bool
  | Ev.dspouse _ => true
  | Ev.dchild _ => true
  | _ => false

/-- Is this a direct-child event of `_render_family_tree`? -/
def isChildEv : Ev → Bool
  | Ev.child _ => true
  | _ => false

/-- Traversal state: the rendered-set and the event stream so far. -/
structure RState where
  rendered : List (Option String)
  events : List Ev
deriving DecidableEq

/-- Emit one event and add `addId` to the rendered-set (the code always pairs
an output line with one `.add`; `addId` is the exact argument it passes). -/
def emitR (st : RState) (e : Ev) (addId : Option String) : RState :=
  { rendered := addId :: st.rendered, events := st.events ++ [e] }

/-- The children loop of `_render_descendant_family` (src/renderer.py
138-150): a missing child is skipped, but the rendered-set is NOT consulted;
every found child is emitted and added. -/
def renderDescChildren (t : FamilyTree) : List (Option String) → RState → RState
  | [], st => st
  | cid :: rest, st =>
    match t.get_individual cid with
    | none => renderDescChildren t rest st
    | some child => renderDescChildren t rest (emitR st (Ev.dchild child.id) cid)

/-- The spouse selection of `_render_descendant_family` (src/renderer.py
122-126): the parent opposite the known one; `none` when neither side
matches (Python compares with `==`, so a `None` husband id matches a `None`
known-parent id). -/
def descSpouseId (fam : Family) (knownParent : Individual) : Option String :=
  if fam.husband_id = knownParent.id then fam.wife_id
  else if fam.wife_id = knownParent.id then fam.husband_id
  else none

/-- The spouse emission of `_render_descendant_family` (src/renderer.py
128-135): a truthy, resolvable spouse is emitted with NO rendered-set
check. -/
def descSpouseStep (t : FamilyTree) (fam : Family) (knownParent : Individual)
    (st : RState) : RState :=
  if pyTruthy (descSpouseId fam knownParent) then
    match t.get_individual (descSpouseId fam knownParent) with
    | some spouse => emitR st (Ev.dspouse spouse.id) (descSpouseId fam knownParent)
    | none => st
  else st

/-- `AsciiRenderer._render_descendant_family` (src/renderer.py 117-152):
emit the spouse opposite the known parent when it resolves, then emit every
resolvable child, all without consulting the rendered-set. -/
def renderDescFam (t : FamilyTree) (fam : Family) (knownParent : Individual)
    (st : RState) : RState :=
  renderDescChildren t fam.children_ids (descSpouseStep t fam knownParent st)

/-- The `for child_family_id in child.family_spouse` loop of
`_render_family_tree` (src/renderer.py 109-113). -/
def renderChildFams (t : FamilyTree) : List (Option String) → Individual → RState → RState
  | [], _, st => st
  | fid :: rest, child, st =>
    match t.get_family fid with
    | some cf => renderChildFams t rest child (renderDescFam t cf child st)
    | none => renderChildFams t rest child st

/-- The children loop of `_render_family_tree` (src/renderer.py 94-113):
children are visited in `children_ids` declaration order; a missing or
already-rendered child is skipped; an emitted child's spouse-families are
rendered as descendant families. -/
def renderChildren (t : FamilyTree) : List (Option String) → RState → RState
  | [], st => st
  | cid :: rest, st =>
    match t.get_individual cid with
    | none => renderChildren t rest st
    | some child =>
      if child.id ∈ st.rendered then renderChildren t rest st
      else
        renderChildren t rest
          (renderChildFams t child.family_spouse child (emitR st (Ev.child child.id) cid))

/-- One parent emission of `_render_family_tree` (src/renderer.py 72-85):
a truthy id resolving to an individual not yet rendered is emitted and
added; anything else leaves the state unchanged. -/
def parentStep (t : FamilyTree) (k : Option String) (st : RState) : RState :=
  if pyTruthy k then
    match t.get_individual k with
    | some p => if p.id ∈ st.rendered then st else emitR st (Ev.parent p.id) p.id
    | none => st
  else st

/-- The parents part of `_render_family_tree`: husband then wife. -/
def renderParents (t : FamilyTree) (fam : Family) (st : RState) : RState :=
  parentStep t fam.wife_id (parentStep t fam.husband_id st)

/-- `AsciiRenderer._render_family_tree`: parents, then the children loop. -/
def renderFamilyTree (t : FamilyTree) (fam : Family) (st : RState) : RState :=
  renderChildren t fam.children_ids (renderParents t fam st)

/-- `AsciiRenderer._find_root_families` root test (src/renderer.py 43-65):
a truthy husband id resolving to an individual with empty `family_child`,
or the same for the wife. -/
def isRootFam (t : FamilyTree) (fam : Family) : Bool :=
  (pyTruthy fam.husband_id &&
    (match t.get_individual fam.husband_id with
     | some h => h.family_child.isEmpty
     | none => false)) ||
  (pyTruthy fam.wife_id &&
    (match t.get_individual fam.wife_id with
     | some w => w.family_child.isEmpty
     | none => false))

/-- `AsciiRenderer._find_root_families`: the qualifying families, in family
insertion order. -/
def findRootFamilies (t : FamilyTree) : List Family :=
  (t.families.map Prod.snd).filter (isRootFam t)

/-- The root-family loop of `render` (src/renderer.py 30-33). -/
def renderRoots (t : FamilyTree) : List Family → RState → RState
  | [], st => st
  | fam :: rest, st => renderRoots t rest (renderFamilyTree t fam st)

/-- The unconnected-individuals pass of `render` (src/renderer.py 36-39). -/
def renderOrphans (t : FamilyTree) : List Individual → RState → RState
  | [], st => st
  | i :: rest, st =>
    if i.id ∈ st.rendered then renderOrphans t rest st
    else renderOrphans t rest (emitR st (Ev.orphan i.id) i.id)

/-- `AsciiRenderer.render`: fresh rendered-set, root families in insertion
order, then the unconnected pass over all individuals in insertion order. -/
def render (t : FamilyTree) : RState :=
  renderOrphans t (t.individuals.map Prod.snd)
    (renderRoots t (findRootFamilies t) ⟨[], []⟩)

/-- Every stored individual is keyed by its own id (true of every tree the
parser builds, since `add_individual` uses `individual.id` as the key). -/
def WellKeyed (t : FamilyTree) : Prop :=
  ∀ p ∈ t.individuals, (Prod.snd p).id = p.1

instance (t : FamilyTree) : Decidable (WellKeyed t) :=
  List.decidableBAll _ t.individuals

/-- The at-most-once discipline the code actually maintains: scanning the
event stream with the set of ids seen so far, every event emitted outside a
descendant-family render carries an id not seen before it. -/
def goodFrom (seen : List (Option String)) : List Ev → Bool
  | [] => true
  | e :: rest => (isDesc e || !decide (evId e ∈ seen)) && goodFrom (evId e :: seen) rest

/-- The renderer invariant: the event stream satisfies the non-descendant
freshness discipline, and every emitted id is in the rendered-set. -/
def RInv (st : RState) : Prop :=
  goodFrom [] st.events = true ∧ ∀ e ∈ st.events, evId e ∈ st.rendered

/-! ## Spec-side definitions (for refinement comparison only)

These two definitions follow the specification's words, not the code, and
exist solely to be compared with the code-derived definitions above. -/

/-- From the spec's words: the claimed sort key — the extracted birth year,
with 9999 only for a child lacking a parsable year. -/
def claimKey (c : Individual) : Nat :=
  match getBirthYear c with
  | some y => y
  | none => 9999

/-- From the spec's words: index `i` starts a run of EXACTLY four
consecutive digits — four digits whose neighbours (when they exist) are
non-digits. -/
def maxRunAt (cs : List Char) (i : Nat) : Bool :=
  digitAt cs i && digitAt cs (i + 1) && digitAt cs (i + 2) && digitAt cs (i + 3) &&
    (decide (i = 0) || !digitAt cs (i - 1)) && !digitAt cs (i + 4)

/-! ## Concrete inputs used by counterexamples and witnesses -/

/-- Husband of the cyclic graph: no parents, spouse in F1. -/
def indH : Individual := { id := some "@H@", family_spouse := [some "@F1@"] }

/-- Child of F1, spouse in F2. -/
def indC : Individual :=
  { id := some "@C@", family_spouse := [some "@F2@"], family_child := [some "@F1@"] }

/-- Wife of F2 (her parent family is a dangling reference). -/
def indW : Individual :=
  { id := some "@W@", family_spouse := [some "@F2@"], family_child := [some "@FX@"] }

/-- F1: husband H, child C. -/
def famF1 : Family :=
  { id := some "@F1@", husband_id := some "@H@", children_ids := [some "@C@"] }

/-- F2: husband C, wife W — and it lists H (already a parent of F1) as a
child, the cyclic shape named by the spec. -/
def famF2 : Family :=
  { id := some "@F2@", husband_id := some "@C@", wife_id := some "@W@",
    children_ids := [some "@H@"] }

/-- The cyclic graph: F2 lists as a child an individual rendered as a parent
of the root family F1. -/
def treeCycle : FamilyTree :=
  { individuals := [(some "@H@", indH), (some "@C@", indC), (some "@W@", indW)],
    families := [(some "@F1@", famF1), (some "@F2@", famF2)] }

/-- Child declared first, born 1995. -/
def indA : Individual := { id := some "@A@", birth_date := some "1995" }

/-- Child declared second, born 1990. -/
def indB : Individual := { id := some "@B@", birth_date := some "1990" }

/-- A family whose declaration order (A, B) disagrees with birth order. -/
def famAB : Family := { id := some "@F@", children_ids := [some "@A@", some "@B@"] }

/-- Tree for the declaration-order-versus-birth-order experiment. -/
def treeDecl : FamilyTree :=
  { individuals := [(some "@A@", indA), (some "@B@", indB)],
    families := [(some "@F@", famAB)] }

/-- A child whose birth date parses to year 0. -/
def indX0 : Individual := { id := some "@X@", birth_date := some "0000" }

/-- A child born 1990. -/
def indY : Individual := { id := some "@Y@", birth_date := some "1990" }

/-- Family with children declared (X, Y). -/
def famXY : Family := { id := some "@F@", children_ids := [some "@X@", some "@Y@"] }

/-- Tree exhibiting the falsy-zero sort key. -/
def treeYear0 : FamilyTree :=
  { individuals := [(some "@X@", indX0), (some "@Y@", indY)],
    families := [(some "@F@", famXY)] }

/-- The family group `get_family_group` produces for `treeYear0`. -/
def groupXY : FamilyGroup :=
  { family := famXY, husband := none, wife := none, children := [indY, indX0] }

/-- An individual with an ordinary GEDCOM birth date. -/
def indJan : Individual := { id := some "@J@", birth_date := some "1 JAN 1950" }

/-! # Helper lemmas -/

theorem dictGet_eq_none_iff {α : Type} (d : List (Option String × α)) (k : Option String) :
    dictGet d k = none ↔ ∀ v : α, (k, v) ∉ d := by
  induction d with
  | nil => simp [dictGet]
  | cons p rest ih =>
    obtain ⟨k0, v0⟩ := p
    by_cases h : k0 = k
    · subst h
      constructor
      · intro h0
        simp [dictGet] at h0
      · intro hall
        exact ((hall v0) (List.mem_cons_self _ _)).elim
    · simp only [dictGet, if_neg h, ih, List.mem_cons]
      constructor
      · intro hall v hv
        rcases hv with hv | hv
        · exact h (congrArg Prod.fst hv).symm
        · exact hall v hv
      · intro hall v hv
        exact hall v (Or.inr hv)

theorem dictGet_mem {α : Type} {d : List (Option String × α)} {k : Option String} {v : α}
    (h : dictGet d k = some v) : (k, v) ∈ d := by
  induction d with
  | nil => simp [dictGet] at h
  | cons p rest ih =>
    obtain ⟨k0, v0⟩ := p
    by_cases hk : k0 = k
    · subst hk
      simp [dictGet] at h
      subst h
      exact List.mem_cons_self _ _
    · simp only [dictGet, if_neg hk] at h
      exact List.mem_cons_of_mem _ (ih h)

theorem dictHas_iff {α : Type} (d : List (Option String × α)) (k : Option String) :
    dictHas d k = true ↔ k ∈ dictKeys d := by
  induction d with
  | nil => simp [dictHas, dictKeys]
  | cons p rest ih =>
    obtain ⟨k0, v0⟩ := p
    simp only [dictHas, dictKeys, List.map_cons, List.mem_cons, Bool.or_eq_true,
      decide_eq_true_eq]
    constructor
    · rintro (h | h)
      · exact Or.inl h.symm
      · exact Or.inr (ih.mp h)
    · rintro (h | h)
      · exact Or.inl h.symm
      · exact Or.inr (ih.mpr h)

theorem dictKeys_map_update {α : Type} (d : List (Option String × α)) (k : Option String)
    (v : α) :
    dictKeys (d.map (fun p => if p.1 = k then (k, v) else p)) = dictKeys d := by
  induction d with
  | nil => rfl
  | cons p rest ih =>
    obtain ⟨k0, v0⟩ := p
    by_cases h : k0 = k
    · subst h
      simp [dictKeys, List.map_cons] at ih ⊢
      exact ih
    · simp [dictKeys, List.map_cons, h] at ih ⊢
      exact ih

theorem mem_dictKeys_dictSet {α : Type} (d : List (Option String × α)) (k : Option String)
    (v : α) : k ∈ dictKeys (dictSet d k v) := by
  unfold dictSet
  split
  · rw [dictKeys_map_update]
    exact (dictHas_iff d k).mp (by assumption)
  · simp [dictKeys, List.map_append]

theorem mem_dictKeys_dictSet_of_mem {α : Type} {d : List (Option String × α)}
    {k0 : Option String} (h : k0 ∈ dictKeys d) (k : Option String) (v : α) :
    k0 ∈ dictKeys (dictSet d k v) := by
  unfold dictSet
  split
  · rw [dictKeys_map_update]
    exact h
  · simp only [dictKeys, List.map_append, List.mem_append]
    exact Or.inl h

theorem nodup_dictKeys_dictSet {α : Type} {d : List (Option String × α)}
    (h : (dictKeys d).Nodup) (k : Option String) (v : α) :
    (dictKeys (dictSet d k v)).Nodup := by
  unfold dictSet
  split
  · rw [dictKeys_map_update]
    exact h
  · rename_i hh
    have hk : k ∉ dictKeys d := fun hm => hh ((dictHas_iff d k).mpr hm)
    simp only [dictKeys, List.map_append]
    rw [List.nodup_append]
    refine ⟨h, List.nodup_singleton _, ?_⟩
    intro x hx hx1
    simp at hx1
    subst hx1
    exact hk hx

theorem filter_eq_length_one {l : List (Option String)} {k : Option String}
    (hn : l.Nodup) (hm : k ∈ l) : (l.filter (fun x => x = k)).length = 1 := by
  induction l with
  | nil => cases hm
  | cons a l ih =>
    rw [List.nodup_cons] at hn
    by_cases h : a = k
    · subst h
      rw [List.filter_cons_of_pos (by simp)]
      have hnil : l.filter (fun x => x = a) = [] := by
        rw [List.filter_eq_nil_iff]
        intro x hx
        simp only [decide_eq_true_eq]
        intro he
        subst he
        exact hn.1 hx
      rw [hnil]
      rfl
    · rw [List.filter_cons_of_neg (by simp [h])]
      refine ih hn.2 ?_
      rcases List.mem_cons.mp hm with h1 | h1
      · exact absurd h1.symm h
      · exact h1

theorem keyCount_eq_one {α : Type} {d : List (Option String × α)} {k : Option String}
    (hn : (dictKeys d).Nodup) (hm : k ∈ dictKeys d) : keyCount d k = 1 :=
  filter_eq_length_one hn hm

theorem saveCurrent_flags (st : PState) : (saveCurrent st).flags = st.flags := by
  unfold saveCurrent
  cases st.current with
  | none => rfl
  | some c => cases c <;> rfl

theorem parseName_id (i : Individual) (v : Option String) : (parseName i v).id = i.id := by
  unfold parseName
  repeat' split
  all_goals rfl

theorem level1Indi_id (i : Individual) (fl : Flags) (tag : String) (v : Option String) :
    (level1Indi i fl tag v).1.id = i.id := by
  unfold level1Indi
  repeat' split
  all_goals simp [parseName_id]

theorem level1Fam_id (f : Family) (fl : Flags) (tag : String) (v : Option String) :
    (level1Fam f fl tag v).1.id = f.id := by
  unfold level1Fam
  repeat' split
  all_goals rfl

theorem processLevel1_tree (st : PState) (tag : String) (v : Option String) :
    (processLevel1 st tag v).tree = st.tree := by
  unfold processLevel1
  repeat' split
  all_goals rfl

theorem level2Indi_tree (st : PState) (i : Individual) (tag : String) (v : Option String) :
    (level2Indi st i tag v).tree = st.tree := by
  unfold level2Indi setIndi
  repeat' split
  all_goals rfl

theorem level2Fam_tree (st : PState) (f : Family) (tag : String) (v : Option String) :
    (level2Fam st f tag v).tree = st.tree := by
  unfold level2Fam setFam
  repeat' split
  all_goals rfl

theorem processLevel2_tree (st : PState) (tag : String) (v : Option String) :
    (processLevel2 st tag v).tree = st.tree := by
  unfold processLevel2
  repeat' split
  all_goals first
    | rfl
    | apply level2Indi_tree
    | apply level2Fam_tree

theorem processLevel1_current_indi {st : PState} {i : Individual}
    (h : st.current = some (Current.indi i)) (tag : String) (v : Option String) :
    ∃ i1 : Individual,
      (processLevel1 st tag v).current = some (Current.indi i1) ∧ i1.id = i.id := by
  have ht : recTruthy st.current = true := by rw [h]; rfl
  unfold processLevel1
  rw [ht, h, if_neg (by simp)]
  exact ⟨(level1Indi i ⟨false, false, false, false⟩ tag v).1, rfl, level1Indi_id i _ tag v⟩

theorem processLevel1_current_fam {st : PState} {f : Family}
    (h : st.current = some (Current.fam f)) (tag : String) (v : Option String) :
    ∃ f1 : Family,
      (processLevel1 st tag v).current = some (Current.fam f1) ∧ f1.id = f.id := by
  have ht : recTruthy st.current = true := by rw [h]; rfl
  unfold processLevel1
  rw [ht, h, if_neg (by simp)]
  exact ⟨(level1Fam f ⟨false, false, false, false⟩ tag v).1, rfl, level1Fam_id f _ tag v⟩

theorem level2Indi_current {st : PState} {i : Individual}
    (h : st.current = some (Current.indi i)) (tag : String) (v : Option String) :
    ∃ i1 : Individual,
      (level2Indi st i tag v).current = some (Current.indi i1) ∧ i1.id = i.id := by
  unfold level2Indi setIndi
  repeat' split
  all_goals first
    | (refine ⟨_, rfl, ?_⟩; rfl)
    | exact ⟨i, h, rfl⟩

theorem level2Fam_current {st : PState} {f : Family}
    (h : st.current = some (Current.fam f)) (tag : String) (v : Option String) :
    ∃ f1 : Family,
      (level2Fam st f tag v).current = some (Current.fam f1) ∧ f1.id = f.id := by
  unfold level2Fam setFam
  repeat' split
  all_goals first
    | (refine ⟨_, rfl, ?_⟩; rfl)
    | exact ⟨f, h, rfl⟩

theorem processLevel2_current_indi {st : PState} {i : Individual}
    (h : st.current = some (Current.indi i)) (tag : String) (v : Option String) :
    ∃ i1 : Individual,
      (processLevel2 st tag v).current = some (Current.indi i1) ∧ i1.id = i.id := by
  have ht : recTruthy st.current = true := by rw [h]; rfl
  unfold processLevel2
  rw [ht, h, if_neg (by simp)]
  exact level2Indi_current h tag v

theorem processLevel2_current_fam {st : PState} {f : Family}
    (h : st.current = some (Current.fam f)) (tag : String) (v : Option String) :
    ∃ f1 : Family,
      (processLevel2 st tag v).current = some (Current.fam f1) ∧ f1.id = f.id := by
  have ht : recTruthy st.current = true := by rw [h]; rfl
  unfold processLevel2
  rw [ht, h, if_neg (by simp)]
  exact level2Fam_current h tag v

theorem saveCurrent_indi_keys {st : PState} {id : String} (h : TrackedIndi st id) :
    some id ∈ dictKeys (saveCurrent st).tree.individuals := by
  rcases h with ⟨i, hc, hid⟩ | hm
  · unfold saveCurrent
    rw [hc]
    show some id ∈ dictKeys (dictSet st.tree.individuals i.id i)
    rw [hid]
    exact mem_dictKeys_dictSet _ _ _
  · unfold saveCurrent
    cases hc : st.current with
    | none => exact hm
    | some c =>
      cases c with
      | indi i => exact mem_dictKeys_dictSet_of_mem hm _ _
      | fam f => exact hm
      | head => exact hm
      | subm s => exact hm

theorem saveCurrent_fam_keys {st : PState} {id : String} (h : TrackedFam st id) :
    some id ∈ dictKeys (saveCurrent st).tree.families := by
  rcases h with ⟨f, hc, hid⟩ | hm
  · unfold saveCurrent
    rw [hc]
    show some id ∈ dictKeys (dictSet st.tree.families f.id f)
    rw [hid]
    exact mem_dictKeys_dictSet _ _ _
  · unfold saveCurrent
    cases hc : st.current with
    | none => exact hm
    | some c =>
      cases c with
      | indi i => exact hm
      | fam f => exact mem_dictKeys_dictSet_of_mem hm _ _
      | head => exact hm
      | subm s => exact hm

theorem saveCurrent_keysOK {st : PState} (h : KeysOK st) : KeysOK (saveCurrent st) := by
  obtain ⟨h1, h2⟩ := h
  unfold saveCurrent
  cases hc : st.current with
  | none => exact ⟨h1, h2⟩
  | some c =>
    cases c with
    | indi i => exact ⟨nodup_dictKeys_dictSet h1 _ _, h2⟩
    | fam f => exact ⟨h1, nodup_dictKeys_dictSet h2 _ _⟩
    | head => exact ⟨h1, h2⟩
    | subm s => exact ⟨h1, h2⟩

theorem processLevel0_tree_indi (st : PState) (tag : String) (v : Option String) :
    (processLevel0 st tag v).tree = (saveCurrent st).tree := by
  unfold processLevel0
  repeat' split
  all_goals rfl

theorem processLevel0_tracked_indi {st : PState} {id : String} (h : TrackedIndi st id)
    (tag : String) (v : Option String) : TrackedIndi (processLevel0 st tag v) id := by
  right
  rw [processLevel0_tree_indi]
  exact saveCurrent_indi_keys h

theorem processLevel0_tracked_fam {st : PState} {id : String} (h : TrackedFam st id)
    (tag : String) (v : Option String) : TrackedFam (processLevel0 st tag v) id := by
  right
  rw [processLevel0_tree_indi]
  exact saveCurrent_fam_keys h

theorem processLevel0_keysOK {st : PState} (h : KeysOK st) (tag : String)
    (v : Option String) : KeysOK (processLevel0 st tag v) := by
  have h2 := saveCurrent_keysOK h
  unfold KeysOK at h2 ⊢
  rw [processLevel0_tree_indi]
  exact h2

theorem processLevel0_declares_indi (st : PState) (id : String) :
    TrackedIndi (processLevel0 st "INDI" (some id)) id := by
  left
  refine ⟨{ id := some id }, ?_, rfl⟩
  unfold processLevel0
  simp

theorem processLevel0_declares_fam (st : PState) (id : String) :
    TrackedFam (processLevel0 st "FAM" (some id)) id := by
  left
  refine ⟨{ id := some id }, ?_, rfl⟩
  unfold processLevel0
  simp

theorem processLevel1_tracked_indi {st : PState} {id : String} (h : TrackedIndi st id)
    (tag : String) (v : Option String) : TrackedIndi (processLevel1 st tag v) id := by
  rcases h with ⟨i, hc, hid⟩ | hm
  · obtain ⟨i1, hcur, hid1⟩ := processLevel1_current_indi hc tag v
    exact Or.inl ⟨i1, hcur, by rw [hid1, hid]⟩
  · right
    rw [processLevel1_tree]
    exact hm

theorem processLevel1_tracked_fam {st : PState} {id : String} (h : TrackedFam st id)
    (tag : String) (v : Option String) : TrackedFam (processLevel1 st tag v) id := by
  rcases h with ⟨f, hc, hid⟩ | hm
  · obtain ⟨f1, hcur, hid1⟩ := processLevel1_current_fam hc tag v
    exact Or.inl ⟨f1, hcur, by rw [hid1, hid]⟩
  · right
    rw [processLevel1_tree]
    exact hm

theorem processLevel2_tracked_indi {st : PState} {id : String} (h : TrackedIndi st id)
    (tag : String) (v : Option String) : TrackedIndi (processLevel2 st tag v) id := by
  rcases h with ⟨i, hc, hid⟩ | hm
  · obtain ⟨i1, hcur, hid1⟩ := processLevel2_current_indi hc tag v
    exact Or.inl ⟨i1, hcur, by rw [hid1, hid]⟩
  · right
    rw [processLevel2_tree]
    exact hm

theorem processLevel2_tracked_fam {st : PState} {id : String} (h : TrackedFam st id)
    (tag : String) (v : Option String) : TrackedFam (processLevel2 st tag v) id := by
  rcases h with ⟨f, hc, hid⟩ | hm
  · obtain ⟨f1, hcur, hid1⟩ := processLevel2_current_fam hc tag v
    exact Or.inl ⟨f1, hcur, by rw [hid1, hid]⟩
  · right
    rw [processLevel2_tree]
    exact hm

theorem dispatchLine_tracked_indi {st : PState} {id : String} (h : TrackedIndi st id)
    (level : Int) (tag : String) (value : Option String) :
    TrackedIndi (dispatchLine st level tag value) id := by
  unfold dispatchLine
  repeat' split
  all_goals first
    | exact processLevel0_tracked_indi h tag value
    | exact processLevel1_tracked_indi h tag value
    | exact processLevel2_tracked_indi h tag value
    | exact h

theorem dispatchLine_tracked_fam {st : PState} {id : String} (h : TrackedFam st id)
    (level : Int) (tag : String) (value : Option String) :
    TrackedFam (dispatchLine st level tag value) id := by
  unfold dispatchLine
  repeat' split
  all_goals first
    | exact processLevel0_tracked_fam h tag value
    | exact processLevel1_tracked_fam h tag value
    | exact processLevel2_tracked_fam h tag value
    | exact h

theorem dispatchLine_keysOK {st : PState} (h : KeysOK st) (level : Int) (tag : String)
    (value : Option String) : KeysOK (dispatchLine st level tag value) := by
  unfold dispatchLine
  repeat' split
  all_goals first
    | exact processLevel0_keysOK h tag value
    | (unfold KeysOK; rw [processLevel1_tree]; exact h)
    | (unfold KeysOK; rw [processLevel2_tree]; exact h)
    | exact h

theorem runLine_tracked_indi {st st1 : PState} {l : String}
    (hr : runLine st l = Except.ok st1) {id : String} (h : TrackedIndi st id) :
    TrackedIndi st1 id := by
  unfold runLine at hr
  by_cases he : (stripChars l.toList).isEmpty = true
  · rw [if_pos he] at hr
    injection hr with hr
    subst hr
    exact h
  · rw [if_neg he] at hr
    cases hp : parseLine (stripChars l.toList) with
    | error e =>
      rw [hp] at hr
      exact Except.noConfusion hr
    | ok triple =>
      obtain ⟨level, tag, value⟩ := triple
      rw [hp] at hr
      injection hr with hr
      subst hr
      exact dispatchLine_tracked_indi h level tag value

theorem runLine_tracked_fam {st st1 : PState} {l : String}
    (hr : runLine st l = Except.ok st1) {id : String} (h : TrackedFam st id) :
    TrackedFam st1 id := by
  unfold runLine at hr
  by_cases he : (stripChars l.toList).isEmpty = true
  · rw [if_pos he] at hr
    injection hr with hr
    subst hr
    exact h
  · rw [if_neg he] at hr
    cases hp : parseLine (stripChars l.toList) with
    | error e =>
      rw [hp] at hr
      exact Except.noConfusion hr
    | ok triple =>
      obtain ⟨level, tag, value⟩ := triple
      rw [hp] at hr
      injection hr with hr
      subst hr
      exact dispatchLine_tracked_fam h level tag value

theorem runLine_keysOK {st st1 : PState} {l : String}
    (hr : runLine st l = Except.ok st1) (h : KeysOK st) : KeysOK st1 := by
  unfold runLine at hr
  by_cases he : (stripChars l.toList).isEmpty = true
  · rw [if_pos he] at hr
    injection hr with hr
    subst hr
    exact h
  · rw [if_neg he] at hr
    cases hp : parseLine (stripChars l.toList) with
    | error e =>
      rw [hp] at hr
      exact Except.noConfusion hr
    | ok triple =>
      obtain ⟨level, tag, value⟩ := triple
      rw [hp] at hr
      injection hr with hr
      subst hr
      exact dispatchLine_keysOK h level tag value

theorem parseLine_nil : parseLine ([] : List Char) = Except.ok (0, "", none) := rfl

theorem dispatchLine_level0 (st : PState) (tag : String) (value : Option String) :
    dispatchLine st 0 tag value = processLevel0 st tag value := by
  unfold dispatchLine
  simp

theorem runLine_declares_indi {st st1 : PState} {l : String} {id : String}
    (hr : runLine st l = Except.ok st1)
    (hd : parseLine (stripChars l.toList) = Except.ok (0, "INDI", some id)) :
    TrackedIndi st1 id := by
  unfold runLine at hr
  by_cases he : (stripChars l.toList).isEmpty = true
  · rw [List.isEmpty_iff] at he
    rw [he, parseLine_nil] at hd
    injection hd with hd
    exact absurd (congrArg (fun p => p.2.1) hd) (by simp)
  · rw [if_neg he, hd] at hr
    injection hr with hr
    subst hr
    rw [dispatchLine_level0]
    exact processLevel0_declares_indi st id

theorem runLine_declares_fam {st st1 : PState} {l : String} {id : String}
    (hr : runLine st l = Except.ok st1)
    (hd : parseLine (stripChars l.toList) = Except.ok (0, "FAM", some id)) :
    TrackedFam st1 id := by
  unfold runLine at hr
  by_cases he : (stripChars l.toList).isEmpty = true
  · rw [List.isEmpty_iff] at he
    rw [he, parseLine_nil] at hd
    injection hd with hd
    exact absurd (congrArg (fun p => p.2.1) hd) (by simp)
  · rw [if_neg he, hd] at hr
    injection hr with hr
    subst hr
    rw [dispatchLine_level0]
    exact processLevel0_declares_fam st id

theorem runLines_tracked_indi {id : String} :
    ∀ (lines : List String) (st st1 : PState), runLines st lines = Except.ok st1 →
      (DeclaredIndi lines id ∨ TrackedIndi st id) → TrackedIndi st1 id := by
  intro lines
  induction lines with
  | nil =>
    intro st st1 h hd
    injection h with h
    subst h
    rcases hd with ⟨l, hl, _⟩ | hd
    · cases hl
    · exact hd
  | cons l rest ih =>
    intro st st1 h hd
    unfold runLines at h
    cases hr : runLine st l with
    | error e =>
      rw [hr] at h
      exact Except.noConfusion h
    | ok st2 =>
      rw [hr] at h
      rcases hd with ⟨l0, hl0mem, hl0⟩ | hd
      · rcases List.mem_cons.mp hl0mem with heq | hmem
        · subst heq
          exact ih st2 st1 h (Or.inr (runLine_declares_indi hr hl0))
        · exact ih st2 st1 h (Or.inl ⟨l0, hmem, hl0⟩)
      · exact ih st2 st1 h (Or.inr (runLine_tracked_indi hr hd))

theorem runLines_tracked_fam {id : String} :
    ∀ (lines : List String) (st st1 : PState), runLines st lines = Except.ok st1 →
      (DeclaredFam lines id ∨ TrackedFam st id) → TrackedFam st1 id := by
  intro lines
  induction lines with
  | nil =>
    intro st st1 h hd
    injection h with h
    subst h
    rcases hd with ⟨l, hl, _⟩ | hd
    · cases hl
    · exact hd
  | cons l rest ih =>
    intro st st1 h hd
    unfold runLines at h
    cases hr : runLine st l with
    | error e =>
      rw [hr] at h
      exact Except.noConfusion h
    | ok st2 =>
      rw [hr] at h
      rcases hd with ⟨l0, hl0mem, hl0⟩ | hd
      · rcases List.mem_cons.mp hl0mem with heq | hmem
        · subst heq
          exact ih st2 st1 h (Or.inr (runLine_declares_fam hr hl0))
        · exact ih st2 st1 h (Or.inl ⟨l0, hmem, hl0⟩)
      · exact ih st2 st1 h (Or.inr (runLine_tracked_fam hr hd))

theorem runLines_keysOK :
    ∀ (lines : List String) (st st1 : PState), runLines st lines = Except.ok st1 →
      KeysOK st → KeysOK st1 := by
  intro lines
  induction lines with
  | nil =>
    intro st st1 h hk
    injection h with h
    subst h
    exact hk
  | cons l rest ih =>
    intro st st1 h hk
    unfold runLines at h
    cases hr : runLine st l with
    | error e =>
      rw [hr] at h
      exact Except.noConfusion h
    | ok st2 =>
      rw [hr] at h
      exact ih st2 st1 h (runLine_keysOK hr hk)

theorem isRootFam_eq_true_iff (t : FamilyTree) (f : Family) :
    isRootFam t f = true ↔
      ((pyTruthy f.husband_id = true ∧
          ∃ h, t.get_individual f.husband_id = some h ∧ h.family_child = [])
        ∨ (pyTruthy f.wife_id = true ∧
          ∃ w, t.get_individual f.wife_id = some w ∧ w.family_child = [])) := by
  unfold isRootFam
  cases hh : t.get_individual f.husband_id <;> cases hw : t.get_individual f.wife_id <;>
    simp [hh, hw, List.isEmpty_iff]

theorem childrenLoopS_spec (t : FamilyTree) (cids : List (Option String)) :
    childrenLoopS t cids = (cids.filterMap t.get_individual, t) := by
  induction cids with
  | nil => rfl
  | cons cid rest ih =>
    simp only [childrenLoopS, get_individualS, ih, List.filterMap_cons]
    cases hc : t.get_individual cid <;> simp [hc]

theorem get_family_groupS_spec (t : FamilyTree) (fid : Option String) :
    get_family_groupS t fid = (get_family_group t fid, t) := by
  unfold get_family_groupS get_family_group get_familyS
  cases hf : t.get_family fid with
  | none => rfl
  | some fam =>
    simp only [get_individualS, childrenLoopS_spec]
    cases pyTruthy fam.husband_id <;> cases pyTruthy fam.wife_id <;> rfl

theorem famGroupsLoopS_spec (t : FamilyTree) (fids : List (Option String)) :
    famGroupsLoopS t fids = (fids.filterMap (get_family_group t), t) := by
  induction fids with
  | nil => rfl
  | cons fid rest ih =>
    simp only [famGroupsLoopS, get_family_groupS_spec, ih, List.filterMap_cons]
    cases hg : get_family_group t fid <;> simp [hg]

theorem filter_orderedInsert_key (k : Nat) (a : Individual) (l : List Individual) :
    (List.orderedInsert keyLe a l).filter (fun c => sortKey c == k)
      = if sortKey a == k then a :: l.filter (fun c => sortKey c == k)
        else l.filter (fun c => sortKey c == k) := by
  induction l with
  | nil =>
    simp only [List.orderedInsert, List.filter]
    cases h : (sortKey a == k) <;> simp [h]
  | cons b l ih =>
    by_cases hab : keyLe a b
    · rw [List.orderedInsert, if_pos hab]
      cases ha : (sortKey a == k) <;> simp [List.filter, ha]
    · rw [List.orderedInsert, if_neg hab]
      cases ha : (sortKey a == k)
      · cases hb : (sortKey b == k) <;> simp [List.filter, ha, hb, ih]
      · have hba : sortKey b < sortKey a := Nat.lt_of_not_le hab
        have hak : sortKey a = k := by simpa using ha
        have hbk : (sortKey b == k) = false := by
          have : sortKey b ≠ k := by omega
          simp [this]
        simp [List.filter, ha, ih, hbk]

theorem filter_insertionSort_key (k : Nat) (l : List Individual) :
    (List.insertionSort keyLe l).filter (fun c => sortKey c == k)
      = l.filter (fun c => sortKey c == k) := by
  induction l with
  | nil => rfl
  | cons a l ih =>
    rw [List.insertionSort, filter_orderedInsert_key]
    cases ha : (sortKey a == k) <;> simp [List.filter, ha, ih]

theorem digitAt_lt {cs : List Char} {i : Nat} (h : digitAt cs i = true) : i < cs.length := by
  by_contra hlt
  rw [digitAt, List.getD_eq_default _ _ (Nat.le_of_not_lt hlt)] at h
  exact Bool.noConfusion h

theorem runAt_lt_length {cs : List Char} {j : Nat} (h : runAt cs j = true) : j < cs.length := by
  unfold runAt at h
  simp only [Bool.and_eq_true] at h
  exact digitAt_lt h.1.1.1.1.1

theorem runAt_of_ge {cs : List Char} {j : Nat} (h : cs.length ≤ j) : runAt cs j = false := by
  cases hr : runAt cs j with
  | false => rfl
  | true => exact absurd (runAt_lt_length hr) (Nat.not_lt_of_le h)

theorem searchFrom_none {cs : List Char} :
    ∀ (fuel i : Nat), searchFrom cs i fuel = none →
      ∀ j, i ≤ j → j < i + fuel → runAt cs j = false := by
  intro fuel
  induction fuel with
  | zero => intro i _ j _ hj; omega
  | succ m ih =>
    intro i h j hij hj
    rw [searchFrom] at h
    by_cases hr : runAt cs i = true
    · rw [if_pos hr] at h
      exact Option.noConfusion h
    · rw [if_neg hr] at h
      rcases Nat.eq_or_lt_of_le hij with rfl | hlt
      · exact Bool.eq_false_iff.mpr hr
      · exact ih (i + 1) h j hlt (by omega)

theorem searchFrom_none_of_all {cs : List Char} :
    ∀ (fuel i : Nat), (∀ j, runAt cs j = false) → searchFrom cs i fuel = none := by
  intro fuel
  induction fuel with
  | zero => intro i _; rfl
  | succ m ih =>
    intro i h
    rw [searchFrom, if_neg (by simp [h i])]
    exact ih (i + 1) h

theorem searchFrom_some {cs : List Char} :
    ∀ (fuel i n : Nat), searchFrom cs i fuel = some n →
      i ≤ n ∧ runAt cs n = true ∧ ∀ j, i ≤ j → j < n → runAt cs j = false := by
  intro fuel
  induction fuel with
  | zero => intro i n h; exact Option.noConfusion h
  | succ m ih =>
    intro i n h
    rw [searchFrom] at h
    by_cases hr : runAt cs i = true
    · rw [if_pos hr] at h
      injection h with h
      subst h
      exact ⟨Nat.le_refl _, hr,
        fun j h1 h2 => absurd (Nat.lt_of_le_of_lt h1 h2) (Nat.lt_irrefl i)⟩
    · rw [if_neg hr] at h
      obtain ⟨h1, h2, h3⟩ := ih (i + 1) n h
      refine ⟨by omega, h2, ?_⟩
      intro j hij hjn
      rcases Nat.eq_or_lt_of_le hij with rfl | hlt
      · exact Bool.eq_false_iff.mpr hr
      · exact h3 j hlt hjn

theorem getBirthYear_eq (i : Individual) : getBirthYear i = searchYear (bdChars i) := by
  unfold getBirthYear bdChars
  cases hb : i.birth_date with
  | none => rfl
  | some s =>
    by_cases hs : s = ""
    · subst hs
      rfl
    · simp only [if_neg hs]

theorem wellKeyed_lookup {t : FamilyTree} (hw : WellKeyed t) {k : Option String}
    {i : Individual} (h : t.get_individual k = some i) : i.id = k :=
  hw (k, i) (dictGet_mem h)

theorem goodFrom_append (seen : List (Option String)) (l1 l2 : List Ev) :
    goodFrom seen (l1 ++ l2)
      = (goodFrom seen l1 && goodFrom ((l1.map evId).reverse ++ seen) l2) := by
  induction l1 generalizing seen with
  | nil => simp [goodFrom]
  | cons e rest ih =>
    simp only [List.cons_append, goodFrom, List.map_cons, List.reverse_cons,
      List.append_eq, ih, Bool.and_assoc, List.append_assoc, List.singleton_append,
      List.nil_append]

theorem emitR_inv {st : RState} {e : Ev} {addId : Option String} (hinv : RInv st)
    (hid : addId = evId e) (hok : isDesc e = true ∨ evId e ∉ st.rendered) :
    RInv (emitR st e addId) := by
  obtain ⟨hg, hr⟩ := hinv
  constructor
  · unfold emitR
    rw [goodFrom_append, hg, Bool.true_and]
    simp only [goodFrom, Bool.and_true]
    rcases hok with hok | hok
    · rw [hok]
      rfl
    · have hne : evId e ∉ (st.events.map evId).reverse ++ ([] : List (Option String)) := by
        rw [List.append_nil, List.mem_reverse]
        intro hm
        obtain ⟨e0, he0, he0id⟩ := List.mem_map.mp hm
        exact hok (he0id ▸ hr e0 he0)
      rw [decide_eq_false hne]
      simp
  · intro e0 he0
    unfold emitR at he0 ⊢
    simp only [List.mem_append, List.mem_singleton] at he0
    rcases he0 with he0 | he0
    · exact List.mem_cons_of_mem _ (hr e0 he0)
    · subst he0
      rw [hid]
      exact List.mem_cons_self _ _

theorem renderDescChildren_inv {t : FamilyTree} (hw : WellKeyed t) :
    ∀ (cids : List (Option String)) (st : RState),
      RInv st → RInv (renderDescChildren t cids st) := by
  intro cids
  induction cids with
  | nil =>
    intro st h
    exact h
  | cons cid rest ih =>
    intro st h
    unfold renderDescChildren
    cases hc : t.get_individual cid with
    | none => exact ih st h
    | some child =>
      exact ih _ (emitR_inv h (wellKeyed_lookup hw hc).symm (Or.inl rfl))

theorem descSpouseStep_inv {t : FamilyTree} (hw : WellKeyed t) (fam : Family)
    (kp : Individual) (st : RState) (h : RInv st) : RInv (descSpouseStep t fam kp st) := by
  unfold descSpouseStep
  split
  · cases hc : t.get_individual (descSpouseId fam kp) with
    | none => exact h
    | some spouse =>
      show RInv (emitR st (Ev.dspouse spouse.id) (descSpouseId fam kp))
      exact emitR_inv h (wellKeyed_lookup hw hc).symm (Or.inl rfl)
  · exact h

theorem renderDescFam_inv {t : FamilyTree} (hw : WellKeyed t) (fam : Family)
    (kp : Individual) (st : RState) (h : RInv st) : RInv (renderDescFam t fam kp st) := by
  unfold renderDescFam
  exact renderDescChildren_inv hw fam.children_ids _ (descSpouseStep_inv hw fam kp st h)

theorem renderChildFams_inv {t : FamilyTree} (hw : WellKeyed t) :
    ∀ (fids : List (Option String)) (child : Individual) (st : RState),
      RInv st → RInv (renderChildFams t fids child st) := by
  intro fids
  induction fids with
  | nil =>
    intro child st h
    exact h
  | cons fid rest ih =>
    intro child st h
    unfold renderChildFams
    cases hc : t.get_family fid with
    | none => exact ih child st h
    | some cf => exact ih child _ (renderDescFam_inv hw cf child st h)

theorem renderChildren_inv {t : FamilyTree} (hw : WellKeyed t) :
    ∀ (cids : List (Option String)) (st : RState),
      RInv st → RInv (renderChildren t cids st) := by
  intro cids
  induction cids with
  | nil =>
    intro st h
    exact h
  | cons cid rest ih =>
    intro st h
    unfold renderChildren
    cases hc : t.get_individual cid with
    | none => exact ih st h
    | some child =>
      show RInv (if child.id ∈ st.rendered then renderChildren t rest st
        else renderChildren t rest
          (renderChildFams t child.family_spouse child (emitR st (Ev.child child.id) cid)))
      by_cases hm : child.id ∈ st.rendered
      · rw [if_pos hm]
        exact ih st h
      · rw [if_neg hm]
        refine ih _ (renderChildFams_inv hw child.family_spouse child _ ?_)
        exact emitR_inv h (wellKeyed_lookup hw hc).symm (Or.inr hm)

theorem parentStep_inv {t : FamilyTree} (k : Option String) (st : RState) (h : RInv st) :
    RInv (parentStep t k st) := by
  unfold parentStep
  split
  · cases hc : t.get_individual k with
    | none => exact h
    | some p =>
      show RInv (if p.id ∈ st.rendered then st else emitR st (Ev.parent p.id) p.id)
      by_cases hm : p.id ∈ st.rendered
      · rw [if_pos hm]
        exact h
      · rw [if_neg hm]
        exact emitR_inv h rfl (Or.inr hm)
  · exact h

theorem renderParents_inv {t : FamilyTree} (fam : Family) (st : RState) (h : RInv st) :
    RInv (renderParents t fam st) := by
  unfold renderParents
  exact parentStep_inv fam.wife_id _ (parentStep_inv fam.husband_id st h)

theorem renderRoots_inv {t : FamilyTree} (hw : WellKeyed t) :
    ∀ (fams : List Family) (st : RState), RInv st → RInv (renderRoots t fams st) := by
  intro fams
  induction fams with
  | nil =>
    intro st h
    exact h
  | cons fam rest ih =>
    intro st h
    unfold renderRoots renderFamilyTree
    exact ih _ (renderChildren_inv hw fam.children_ids _ (renderParents_inv fam st h))

theorem renderOrphans_inv {t : FamilyTree} :
    ∀ (inds : List Individual) (st : RState), RInv st → RInv (renderOrphans t inds st) := by
  intro inds
  induction inds with
  | nil =>
    intro st h
    exact h
  | cons i rest ih =>
    intro st h
    unfold renderOrphans
    by_cases hm : i.id ∈ st.rendered
    · rw [if_pos hm]
      exact ih st h
    · rw [if_neg hm]
      exact ih _ (emitR_inv h rfl (Or.inr hm))

theorem renderDescChildren_events (t : FamilyTree) :
    ∀ (cids : List (Option String)) (st : RState),
      ∃ d, (renderDescChildren t cids st).events = st.events ++ d ∧
        d.filter isChildEv = [] := by
  intro cids
  induction cids with
  | nil =>
    intro st
    exact ⟨[], by simp [renderDescChildren], rfl⟩
  | cons cid rest ih =>
    intro st
    unfold renderDescChildren
    cases hc : t.get_individual cid with
    | none => exact ih st
    | some child =>
      obtain ⟨d, hd, hf⟩ := ih (emitR st (Ev.dchild child.id) cid)
      refine ⟨Ev.dchild child.id :: d, ?_, ?_⟩
      · rw [hd]
        simp [emitR]
      · simp [List.filter, isChildEv, hf]

theorem descSpouseStep_events (t : FamilyTree) (fam : Family) (kp : Individual)
    (st : RState) :
    ∃ d, (descSpouseStep t fam kp st).events = st.events ++ d ∧
      d.filter isChildEv = [] := by
  unfold descSpouseStep
  split
  · cases hc : t.get_individual (descSpouseId fam kp) with
    | none => exact ⟨[], by simp, rfl⟩
    | some spouse =>
      show ∃ d, (emitR st (Ev.dspouse spouse.id) (descSpouseId fam kp)).events
          = st.events ++ d ∧ d.filter isChildEv = []
      exact ⟨[Ev.dspouse spouse.id], by simp [emitR], rfl⟩
  · exact ⟨[], by simp, rfl⟩

theorem renderDescFam_events (t : FamilyTree) (fam : Family) (kp : Individual)
    (st : RState) :
    ∃ d, (renderDescFam t fam kp st).events = st.events ++ d ∧
      d.filter isChildEv = [] := by
  unfold renderDescFam
  obtain ⟨d1, hd1, hf1⟩ := descSpouseStep_events t fam kp st
  obtain ⟨d2, hd2, hf2⟩ := renderDescChildren_events t fam.children_ids
    (descSpouseStep t fam kp st)
  refine ⟨d1 ++ d2, ?_, ?_⟩
  · rw [hd2, hd1, List.append_assoc]
  · rw [List.filter_append, hf1, hf2]
    rfl

theorem renderChildFams_events (t : FamilyTree) :
    ∀ (fids : List (Option String)) (child : Individual) (st : RState),
      ∃ d, (renderChildFams t fids child st).events = st.events ++ d ∧
        d.filter isChildEv = [] := by
  intro fids
  induction fids with
  | nil =>
    intro child st
    exact ⟨[], by simp [renderChildFams], rfl⟩
  | cons fid rest ih =>
    intro child st
    unfold renderChildFams
    cases hc : t.get_family fid with
    | none => exact ih child st
    | some cf =>
      obtain ⟨d1, hd1, hf1⟩ := renderDescFam_events t cf child st
      obtain ⟨d2, hd2, hf2⟩ := ih child (renderDescFam t cf child st)
      refine ⟨d1 ++ d2, ?_, ?_⟩
      · rw [hd2, hd1, List.append_assoc]
      · rw [List.filter_append, hf1, hf2]
        rfl

theorem parentStep_events (t : FamilyTree) (k : Option String) (st : RState) :
    ∃ d, (parentStep t k st).events = st.events ++ d ∧ d.filter isChildEv = [] := by
  unfold parentStep
  split
  · cases hc : t.get_individual k with
    | none => exact ⟨[], by simp, rfl⟩
    | some p =>
      show ∃ d, (if p.id ∈ st.rendered then st else emitR st (Ev.parent p.id) p.id).events
          = st.events ++ d ∧ d.filter isChildEv = []
      by_cases hm : p.id ∈ st.rendered
      · rw [if_pos hm]
        exact ⟨[], by simp, rfl⟩
      · rw [if_neg hm]
        exact ⟨[Ev.parent p.id], by simp [emitR], rfl⟩
  · exact ⟨[], by simp, rfl⟩

theorem renderParents_events (t : FamilyTree) (fam : Family) (st : RState) :
    ∃ d, (renderParents t fam st).events = st.events ++ d ∧
      d.filter isChildEv = [] := by
  unfold renderParents
  obtain ⟨d1, hd1, hf1⟩ := parentStep_events t fam.husband_id st
  obtain ⟨d2, hd2, hf2⟩ := parentStep_events t fam.wife_id (parentStep t fam.husband_id st)
  refine ⟨d1 ++ d2, ?_, ?_⟩
  · rw [hd2, hd1, List.append_assoc]
  · rw [List.filter_append, hf1, hf2]
    rfl

theorem renderChildren_events {t : FamilyTree} (hw : WellKeyed t) :
    ∀ (cids : List (Option String)) (st : RState),
      ∃ d, (renderChildren t cids st).events = st.events ++ d ∧
        List.Sublist ((d.filter isChildEv).map evId) cids := by
  intro cids
  induction cids with
  | nil =>
    intro st
    exact ⟨[], by simp [renderChildren], by simp⟩
  | cons cid rest ih =>
    intro st
    unfold renderChildren
    cases hc : t.get_individual cid with
    | none =>
      obtain ⟨d, hd, hs⟩ := ih st
      exact ⟨d, hd, hs.cons cid⟩
    | some child =>
      show ∃ d, (if child.id ∈ st.rendered then renderChildren t rest st
          else renderChildren t rest
            (renderChildFams t child.family_spouse child
              (emitR st (Ev.child child.id) cid))).events = st.events ++ d ∧
        List.Sublist ((d.filter isChildEv).map evId) (cid :: rest)
      by_cases hm : child.id ∈ st.rendered
      · rw [if_pos hm]
        obtain ⟨d, hd, hs⟩ := ih st
        exact ⟨d, hd, hs.cons cid⟩
      · rw [if_neg hm]
        obtain ⟨d2, hd2, hf2⟩ := renderChildFams_events t child.family_spouse child
          (emitR st (Ev.child child.id) cid)
        obtain ⟨d3, hd3, hs3⟩ := ih
          (renderChildFams t child.family_spouse child (emitR st (Ev.child child.id) cid))
        refine ⟨Ev.child child.id :: (d2 ++ d3), ?_, ?_⟩
        · rw [hd3, hd2]
          simp [emitR]
        · have hcid : child.id = cid := wellKeyed_lookup hw hc
          rw [List.filter_cons_of_pos (by rfl), List.filter_append, hf2,
            List.nil_append, List.map_cons, hcid]
          exact hs3.cons₂ cid

/-! # Claim theorems -/

/-- C1.  The claim (and the spec, twice) say a line whose first token is not
a valid integer is skipped and the pass continues.  The code has no handler
around `int(parts[0])`: the `ValueError` propagates and aborts the whole
pass, so no record of the input — not even one declared on a well-formed
line — is committed.  With the malformed line removed, both records commit,
which is the behavior the claim describes. -/
theorem c1_malformed_line_aborts :
    parseGedcom ["0 @I1@ INDI", "oops line", "0 @I2@ INDI"]
      = Except.error (ParseErr.badLevel "oops") ∧
    parseGedcom ["0 @I1@ INDI", "0 @I2@ INDI"]
      = Except.ok (treeOf ["0 @I1@ INDI", "0 @I2@ INDI"]) ∧
    keyCount (treeOf ["0 @I1@ INDI", "0 @I2@ INDI"]).individuals (some "@I1@") = 1 ∧
    keyCount (treeOf ["0 @I1@ INDI", "0 @I2@ INDI"]).individuals (some "@I2@") = 1 := by
  refine ⟨by decide, by decide, by decide, by decide⟩

/-- C2, counterexample.  On the cyclic graph named by the spec (F2 lists as
a child the individual already rendered as a parent of F1), a single render
call emits individual `@H@` twice: once as a parent, once as a
descendant-family child — `_render_descendant_family` never consults the
rendered-set. -/
theorem c2_counterexample :
    (render treeCycle).events
      = [Ev.parent (some "@H@"), Ev.child (some "@C@"),
         Ev.dspouse (some "@W@"), Ev.dchild (some "@H@")] ∧
    ((render treeCycle).events.map evId).count (some "@H@") = 2 := by
  refine ⟨by decide, by decide⟩

/-- C3, counterexample.  A child whose birth date is "0000" has extracted
birth year 0, but the Python key `get_birth_year() or 9999` treats the falsy
0 like a missing year, so that child sorts last: the output keys are
[1990, 0], not ascending by extracted birth year as the claim states. -/
theorem c3_counterexample :
    (get_family_group treeYear0 (some "@F@")).map (fun g => g.children.map Individual.id)
      = some [some "@Y@", some "@X@"] ∧
    (get_family_group treeYear0 (some "@F@")).map (fun g => g.children.map claimKey)
      = some [1990, 0] ∧
    ¬ List.Sorted (fun a b => claimKey a ≤ claimKey b)
        (((get_family_group treeYear0 (some "@F@")).map (fun g => g.children)).getD []) := by
  refine ⟨by decide, by decide, by decide⟩

/-- C4, counterexample.  A family declaring children (A b.1995, B b.1990):
the family-unit render emits them in declaration order (A, B), while the
ascending-birth-year order of the family-group sort is (B, A). -/
theorem c4_counterexample :
    (renderFamilyTree treeDecl famAB ⟨[], []⟩).events
      = [Ev.child (some "@A@"), Ev.child (some "@B@")] ∧
    (get_family_group treeDecl (some "@F@")).map (fun g => g.children.map Individual.id)
      = some [some "@B@", some "@A@"] ∧
    getBirthYear indA = some 1995 ∧ getBirthYear indB = some 1990 := by
  refine ⟨by decide, by decide, by decide, by decide⟩

/-- C6, counterexample.  "abc1234" contains a run of exactly four
consecutive digits (at index 3: its neighbours are the letter c and the end
of the string), yet year extraction returns no year, because the code's
regex demands word boundaries and a letter is a word character. -/
theorem c6_counterexample :
    getBirthYear { id := none, birth_date := some "abc1234" } = none ∧
    maxRunAt "abc1234".toList 3 = true := by
  refine ⟨by decide, by decide⟩

/-- C6, as amended.  Year extraction returns no year exactly when no index
of the date starts a word-boundary-delimited four-digit run (`runAt`), and
when `n` is the leftmost such index the returned year is the value of the
four digits at `n` — leftmost word-boundary match, not plain
digit-run-of-exactly-four match. -/
theorem c6_word_boundary_year (ind : Individual) (n : Nat) :
    (getBirthYear ind = none ↔ ∀ j, runAt (bdChars ind) j = false) ∧
    (runAt (bdChars ind) n = true → (∀ j, j < n → runAt (bdChars ind) j = false) →
      getBirthYear ind = some (yearVal (bdChars ind) n)) := by
  rw [getBirthYear_eq]
  constructor
  · constructor
    · intro h j
      unfold searchYear at h
      cases hs : searchFrom (bdChars ind) 0 (bdChars ind).length with
      | none =>
        by_cases hj : j < (bdChars ind).length
        · exact searchFrom_none (bdChars ind).length 0 hs j (Nat.zero_le _) (by omega)
        · exact runAt_of_ge (Nat.le_of_not_lt hj)
      | some m =>
        rw [hs] at h
        exact Option.noConfusion h
    · intro h
      unfold searchYear
      rw [searchFrom_none_of_all _ _ h]
      rfl
  · intro hrun hmin
    unfold searchYear
    cases hs : searchFrom (bdChars ind) 0 (bdChars ind).length with
    | none =>
      have hf : runAt (bdChars ind) n = false :=
        searchFrom_none (bdChars ind).length 0 hs n (Nat.zero_le _)
          (by have := runAt_lt_length hrun; omega)
      rw [hrun] at hf
      exact Bool.noConfusion hf
    | some m =>
      obtain ⟨-, hm, hmin2⟩ := searchFrom_some (bdChars ind).length 0 m hs
      have hmn : m = n := by
        by_contra hne
        rcases Nat.lt_or_ge m n with hlt | hge
        · rw [hmin m hlt] at hm
          exact Bool.noConfusion hm
        · have hlt2 : n < m := Nat.lt_of_le_of_ne hge (fun e => hne e.symm)
          rw [hmin2 n (Nat.zero_le _) hlt2] at hrun
          exact Bool.noConfusion hrun
      subst hmn
      rfl

/-- C6, witness: the amended theorem at the date "1 JAN 1950", whose
leftmost word-boundary four-digit run starts at index 6 and reads 1950. -/
theorem c6_word_boundary_year_witness :
    getBirthYear indJan = some (yearVal (bdChars indJan) 6) ∧
    yearVal (bdChars indJan) 6 = 1950 :=
  ⟨(c6_word_boundary_year indJan 6).2 (by decide) (by decide), by decide⟩

/-- C5.  A family is classified a root iff its husband id is truthy and
resolves to an individual with empty `family_child`, or the same for the
wife; the roots are a sublist of the families in insertion order. -/
theorem c5_root_discovery (t : FamilyTree) :
    List.Sublist (findRootFamilies t) (t.families.map Prod.snd) ∧
    ∀ f : Family, f ∈ findRootFamilies t ↔
      (f ∈ t.families.map Prod.snd ∧
        ((pyTruthy f.husband_id = true ∧
            ∃ h, t.get_individual f.husband_id = some h ∧ h.family_child = [])
          ∨ (pyTruthy f.wife_id = true ∧
            ∃ w, t.get_individual f.wife_id = some w ∧ w.family_child = []))) := by
  constructor
  · exact List.filter_sublist _
  · intro f
    rw [findRootFamilies, List.mem_filter, isRootFam_eq_true_iff]

/-- C7.  `get_individual` / `get_family` are total: they return `none`
exactly when no entry with the queried id is stored, and whenever they
return an entity, that entity is stored under the queried id — no error
path exists for a missing id. -/
theorem c7_lookup_total (t : FamilyTree) (k : Option String) :
    ((t.get_individual k = none ↔ ∀ v : Individual, (k, v) ∉ t.individuals) ∧
      ∀ i : Individual, t.get_individual k = some i → (k, i) ∈ t.individuals) ∧
    ((t.get_family k = none ↔ ∀ v : Family, (k, v) ∉ t.families) ∧
      ∀ f : Family, t.get_family k = some f → (k, f) ∈ t.families) :=
  ⟨⟨dictGet_eq_none_iff t.individuals k, fun _ h => dictGet_mem h⟩,
   ⟨dictGet_eq_none_iff t.families k, fun _ h => dictGet_mem h⟩⟩

/-- C7, witness: the lookup theorem applied to the concrete cyclic tree. -/
theorem c7_lookup_total_witness :
    (some "@H@", indH) ∈ treeCycle.individuals :=
  (c7_lookup_total treeCycle (some "@H@")).1.2 indH (by decide)

/-- C8.  Whenever the parse of an input completes, every id declared on a
level-0 INDI line is a key of the individuals dict exactly once, and every
id declared on a level-0 FAM line is a key of the families dict exactly
once — including ids whose record is still open at end-of-input, which the
final save commits with whatever fields were set. -/
theorem c8_declared_ids_committed (lines : List String) (t : FamilyTree)
    (h : parseGedcom lines = Except.ok t) :
    (∀ id : String, DeclaredIndi lines id → keyCount t.individuals (some id) = 1) ∧
    (∀ id : String, DeclaredFam lines id → keyCount t.families (some id) = 1) := by
  unfold parseGedcom at h
  cases hr : runLines initState lines with
  | error e =>
    rw [hr] at h
    exact Except.noConfusion h
  | ok st =>
    rw [hr] at h
    injection h with h
    subst h
    have hOK : KeysOK (saveCurrent st) :=
      saveCurrent_keysOK
        (runLines_keysOK lines initState st hr ⟨List.nodup_nil, List.nodup_nil⟩)
    constructor
    · intro id hd
      have htr : TrackedIndi st id := runLines_tracked_indi lines initState st hr (Or.inl hd)
      exact keyCount_eq_one hOK.1 (saveCurrent_indi_keys htr)
    · intro id hd
      have htr : TrackedFam st id := runLines_tracked_fam lines initState st hr (Or.inl hd)
      exact keyCount_eq_one hOK.2 (saveCurrent_fam_keys htr)

/-- C8, witness: a file whose INDI record carries a stray level-1 line and
whose FAM record is still open at end-of-input; both declared ids end up in
the graph exactly once. -/
theorem c8_declared_ids_committed_witness :
    keyCount (treeOf ["0 @I1@ INDI", "1 NOPE", "0 @F1@ FAM", "1 CHIL @I1@"]).individuals
        (some "@I1@") = 1 ∧
    keyCount (treeOf ["0 @I1@ INDI", "1 NOPE", "0 @F1@ FAM", "1 CHIL @I1@"]).families
        (some "@F1@") = 1 := by
  have h : parseGedcom ["0 @I1@ INDI", "1 NOPE", "0 @F1@ FAM", "1 CHIL @I1@"]
      = Except.ok (treeOf ["0 @I1@ INDI", "1 NOPE", "0 @F1@ FAM", "1 CHIL @I1@"]) := by
    decide
  have H := c8_declared_ids_committed _ _ h
  exact ⟨H.1 "@I1@" (by decide), H.2 "@F1@" (by decide)⟩

/-- C9.  `get_all_family_groups`, with the tree threaded through every
access, returns the tree unchanged (the only in-place mutation in the code
sorts a per-call local list), so a second call without re-parsing returns
the identical group list. -/
theorem c9_groups_idempotent (t : FamilyTree) :
    (get_all_family_groupsS ((get_all_family_groupsS t).2)).1 = (get_all_family_groupsS t).1 ∧
    (get_all_family_groupsS t).2 = t ∧
    (get_all_family_groupsS t).1 = get_all_family_groups t := by
  unfold get_all_family_groupsS get_all_family_groups
  simp [famGroupsLoopS_spec]

/-- C2, as amended.  On a well-keyed graph (every stored individual keyed by
its own id, as the parser guarantees), a single render call maintains this
discipline over its whole event stream: every event emitted outside a
descendant-family render carries an id never emitted before it, by any
earlier event.  Hence parents, direct children and orphans are emitted at
most once and any double emission comes from a descendant-family render,
whose spouse/children emissions skip the rendered-set check; the traversal
itself always terminates (the render functions are structurally
recursive). -/
theorem c2_every_nondescendant_emission_fresh (t : FamilyTree) (h : WellKeyed t) :
    goodFrom [] (render t).events = true := by
  have hinv : RInv (render t) := by
    unfold render
    apply renderOrphans_inv
    apply renderRoots_inv h
    exact ⟨rfl, by intro e he; cases he⟩
  exact hinv.1

/-- C2, witness: the amended freshness theorem holds on the cyclic graph
(whose only repeated emission, of the parent rendered again as a descendant
child, is a descendant event). -/
theorem c2_every_nondescendant_emission_fresh_witness :
    goodFrom [] (render treeCycle).events = true :=
  c2_every_nondescendant_emission_fresh treeCycle (by decide)

/-- C4, as amended.  During a family-unit render on a well-keyed graph, the
ids of the emitted direct-child events form a subsequence of the family's
`children_ids` — declaration order, not birth-year order; the parent step
and descendant renders contribute no direct-child events. -/
theorem c4_children_in_declaration_order (t : FamilyTree) (fam : Family) (st : RState)
    (h : WellKeyed t) :
    ∃ d, (renderFamilyTree t fam st).events = st.events ++ d ∧
      List.Sublist ((d.filter isChildEv).map evId) fam.children_ids := by
  unfold renderFamilyTree
  obtain ⟨d1, hd1, hf1⟩ := renderParents_events t fam st
  obtain ⟨d2, hd2, hs2⟩ := renderChildren_events h fam.children_ids (renderParents t fam st)
  refine ⟨d1 ++ d2, ?_, ?_⟩
  · rw [hd2, hd1, List.append_assoc]
  · rw [List.filter_append, hf1, List.nil_append]
    exact hs2

/-- C4, witness: the declaration-order theorem applied to the family whose
children are declared against birth order. -/
theorem c4_children_in_declaration_order_witness :
    List.Sublist (((renderFamilyTree treeDecl famAB ⟨[], []⟩).events.filter isChildEv).map evId)
      famAB.children_ids := by
  obtain ⟨d, hd, hs⟩ := c4_children_in_declaration_order treeDecl famAB ⟨[], []⟩ (by decide)
  have he : (renderFamilyTree treeDecl famAB ⟨[], []⟩).events = d := by
    rw [hd]
    rfl
  rw [he]
  exact hs

/-- C3, as amended.  The children of a present family group are exactly the
resolvable declared children, stably sorted ascending by the code's key
`get_birth_year() or 9999` (so unparsable-year children AND year-0 children
sort as 9999): the output is a permutation, it is sorted by that key, and
for every key value the children carrying it keep their declaration order
(the filtered subsequences agree). -/
theorem c3_children_sorted_stably (t : FamilyTree) (fid : Option String) (fam : Family)
    (g : FamilyGroup) (h1 : t.get_family fid = some fam)
    (h2 : get_family_group t fid = some g) :
    g.children.Perm (fam.children_ids.filterMap t.get_individual) ∧
    List.Sorted keyLe g.children ∧
    ∀ k : Nat, g.children.filter (fun c => sortKey c == k)
      = (fam.children_ids.filterMap t.get_individual).filter (fun c => sortKey c == k) := by
  have hg : g.children
      = List.insertionSort keyLe (fam.children_ids.filterMap t.get_individual) := by
    unfold get_family_group at h2
    rw [h1] at h2
    injection h2 with h3
    subst h3
    rfl
  rw [hg]
  exact ⟨List.perm_insertionSort _ _, List.sorted_insertionSort _ _,
    fun k => filter_insertionSort_key k _⟩

/-- C3, witness: the amended sorting theorem applied to the year-0 tree. -/
theorem c3_children_sorted_stably_witness :
    groupXY.children.Perm (famXY.children_ids.filterMap treeYear0.get_individual) ∧
    List.Sorted keyLe groupXY.children ∧
    groupXY.children.filter (fun c => sortKey c == 9999)
      = (famXY.children_ids.filterMap treeYear0.get_individual).filter
          (fun c => sortKey c == 9999) := by
  have H := c3_children_sorted_stably treeYear0 (some "@F@") famXY groupXY
    (by decide) (by decide)
  exact ⟨H.1, H.2.1, H.2.2 9999⟩

/-- C10.  Level-0 processing never touches the sub-context flags, and in
the concrete input where a record ends with an open BIRT context and the
next record's first body line is a level-2 DATE, that date lands in the new
record's birth_date even though the new record contains no BIRT line. -/
theorem c10_stale_subcontext :
    (∀ (st : PState) (tag : String) (value : Option String),
        (processLevel0 st tag value).flags = st.flags) ∧
    ((treeOf ["0 @I1@ INDI", "1 BIRT", "0 @I2@ INDI", "2 DATE 1900"]).get_individual
        (some "@I2@")).map Individual.birth_date = some (some "1900") := by
  constructor
  · intro st tag value
    unfold processLevel0
    repeat' split
    all_goals simp [saveCurrent_flags]
  · decide

end Ftree
